import Mathlib

/-!
# Verification of the timeclock stamp state machine and aggregation engine

Shallow embedding of the `timeclock` sources:

* `timeclock/stamp.py` — the `Transition` enum with its adjacency rule, the
  `Stamp` record, stamp-file naming and the `most_recent` lookup;
* `timeclock/clock.py` — the append gate of the `clock` entry point;
* `timeclock/timesheet.py` — the `WorkDay` record, the `collect` day
  aggregator and the week-total fold of `time_table` / `week_table`;
* `timeclock/schedule.py` — the `Schedule` record with `categorize`.

Timestamps are embedded as UTC epoch seconds (`Int`), durations as seconds
(`Int`), `datetime.date` values as year/month/day triples, and fractional
hour arithmetic of the weekly summary as `ℚ`.
-/

namespace Timeclock

/-- The five stamp kinds of `timeclock/stamp.py`, class `Transition`. -/
inductive Transition where
  | IN
  | OUT
  | PAUSE
  | RESUME
  | TAG
deriving DecidableEq, Repr, Fintype

/-- `Transition.may_follow` (stamp.py lines 24-32): which transition may
legally follow which predecessor (`none` encodes Python `None`, i.e. an
empty store).  The Python `elif` chain is total over the five variants;
the final branch is the `TAG` case. -/
def Transition.mayFollow (self : Transition) (other : Option Transition) : Bool :=
  if self = Transition.IN then
    decide (other = some Transition.OUT ∨ other = none)
  else if self = Transition.OUT ∨ self = Transition.PAUSE then
    decide (other = some Transition.IN ∨ other = some Transition.RESUME ∨
            other = some Transition.TAG)
  else if self = Transition.RESUME then
    decide (other = some Transition.PAUSE)
  else
    decide (¬(other = some Transition.OUT ∨ other = none))

/-- `Stamp` (stamp.py lines 38-45): one immutable event.  `time` is the UTC
epoch second of the stamp; `details` is the trimmed free-text field. -/
structure Stamp where
  transition : Transition
  time : Int
  details : String
deriving DecidableEq, Repr

/-- `Stamp.may_follow` (stamp.py lines 51-55): transition adjacency plus the
strict chronological-order requirement `self.time > other.time`. -/
def Stamp.mayFollow (self : Stamp) (other : Option Stamp) : Bool :=
  match other with
  | none => self.transition.mayFollow none
  | some o => self.transition.mayFollow (some o.transition) && decide (o.time < self.time)

/-- The two rejection messages printed by `clock.py` lines 73-77. -/
inductive ClockError where
  | cannotFollow (candidate predecessor : Transition)
  | firstMustBeIn
deriving DecidableEq, Repr

/-- Observable outcome of one `clock` append invocation: the stamp written
to the store (if any), the process exit code, and the error reported. -/
structure ClockOutcome where
  written : Option Stamp
  exitCode : Nat
  error : Option ClockError
deriving DecidableEq, Repr

/-- `clock.py` `main`, lines 67-78 (the plain-append branch, i.e. neither
`--replace` nor `--remove`): write the proposed stamp and exit 0 when forced
or legal; otherwise write nothing, report the offending pair (or the
first-stamp message on an empty store) and exit 1. -/
def clockAppend (force : Bool) (this_ : Stamp) (last : Option Stamp) : ClockOutcome :=
  if force || this_.mayFollow last then
    { written := some this_, exitCode := 0, error := none }
  else
    match last with
    | some l =>
        { written := none, exitCode := 1,
          error := some (ClockError.cannotFollow this_.transition l.transition) }
    | none =>
        { written := none, exitCode := 1, error := some ClockError.firstMustBeIn }

/-- C1: `Transition.may_follow` matches the §4.1 adjacency table exactly —
IN after {OUT, None}; OUT and PAUSE after {IN, RESUME, TAG}; RESUME after
{PAUSE}; TAG after anything except {OUT, None} — and IN is the only
transition legal after predecessor `None`. -/
theorem transition_mayFollow_matches_table :
    (∀ (c : Transition) (p : Option Transition),
      c.mayFollow p = true ↔
        ((c = Transition.IN ∧ (p = some Transition.OUT ∨ p = none)) ∨
         (c = Transition.OUT ∧
           (p = some Transition.IN ∨ p = some Transition.RESUME ∨ p = some Transition.TAG)) ∨
         (c = Transition.PAUSE ∧
           (p = some Transition.IN ∨ p = some Transition.RESUME ∨ p = some Transition.TAG)) ∨
         (c = Transition.RESUME ∧ p = some Transition.PAUSE) ∨
         (c = Transition.TAG ∧ ¬(p = some Transition.OUT ∨ p = none)))) ∧
    (∀ c : Transition, c.mayFollow none = true ↔ c = Transition.IN) := by
  decide

/-- C2: the stamp-level check `Stamp.may_follow` holds for a stamp
predecessor iff the transition adjacency holds and the candidate's time is
strictly greater than the predecessor's; equal or earlier times are illegal
even when the transition kind would be legal. -/
theorem stamp_mayFollow_iff_adjacency_and_strictly_later :
    ∀ s p : Stamp,
      s.mayFollow (some p) = true ↔
        (s.transition.mayFollow (some p.transition) = true ∧ p.time < s.time) := by
  intro s p
  simp [Stamp.mayFollow]

/-- C3: the plain append of `clock` writes the proposed stamp and exits 0
iff forced or the stamp may follow the most recent stored one; otherwise it
writes nothing, exits 1, and reports the offending transition pair (or the
first-stamp-must-be-in message when the store is empty). -/
theorem clock_append_gate :
    ∀ (force : Bool) (s : Stamp) (last : Option Stamp),
      ((clockAppend force s last).written = some s ∧
          (clockAppend force s last).exitCode = 0 ↔
        (force = true ∨ s.mayFollow last = true)) ∧
      (¬(force = true ∨ s.mayFollow last = true) →
        (clockAppend force s last).written = none ∧
        (clockAppend force s last).exitCode = 1 ∧
        (clockAppend force s last).error =
          some (match last with
                | some l => ClockError.cannotFollow s.transition l.transition
                | none => ClockError.firstMustBeIn)) := by
  intro force s last
  by_cases hc : force = true ∨ s.mayFollow last = true
  · have hif : (force || s.mayFollow last) = true := by
      rcases hc with h | h <;> simp [h]
    constructor
    · rw [clockAppend.eq_def, hif]
      simpa using hc
    · intro h
      exact absurd hc h
  · have hif : (force || s.mayFollow last) = false := by
      cases force <;> cases hml : s.mayFollow last <;> simp_all
    constructor
    · rw [clockAppend.eq_def, hif]
      cases last <;> simpa using hc
    · intro _
      rw [clockAppend.eq_def, hif]
      cases last <;> simp

/-- Witness for C3 at a concrete input: with no force flag, an `OUT` stamp
proposed to an empty store is refused with exit code 1 and the
first-stamp-must-be-in message. -/
theorem clock_append_gate_witness :
    (clockAppend false ⟨Transition.OUT, 10, ""⟩ none).written = none ∧
    (clockAppend false ⟨Transition.OUT, 10, ""⟩ none).exitCode = 1 ∧
    (clockAppend false ⟨Transition.OUT, 10, ""⟩ none).error =
      some ClockError.firstMustBeIn :=
  (clock_append_gate false ⟨Transition.OUT, 10, ""⟩ none).2 (by decide)

/-- `State` (timesheet.py lines 26-30): last-known open state of a day. -/
inductive DayState where
  | ABSENT
  | WORKING
  | PAUSING
deriving DecidableEq, Repr

/-- `WorkDay.__init__` (timesheet.py lines 33-41).  `date`, `begin` and
`end_` are day-floored / raw epoch seconds; `pause_time` is seconds.
The structure defaults are exactly the constructor's initial values, so
`({} : WorkDay)` is Python's `WorkDay()`. -/
structure WorkDay where
  date : Option Int := none
  begin : Option Int := none
  end_ : Option Int := none
  pause_time : Int := 0
  tags : List String := []
  invalid_transitions : Bool := false
  state : Option DayState := none
deriving DecidableEq, Repr

/-- `WorkDay.consistent` (timesheet.py lines 49-50). -/
def WorkDay.consistent (d : WorkDay) : Bool :=
  d.begin.isSome && !d.invalid_transitions

/-- `WorkDay.work_time` (timesheet.py lines 43-47): zero for an
inconsistent day, otherwise `(end or now) - begin - pause_time`.  When the
day is consistent `begin` is present, so the `getD 0` default is never
used. -/
def WorkDay.work_time (d : WorkDay) (now : Int) : Int :=
  if d.consistent then (d.end_.getD now - d.begin.getD 0) - d.pause_time else 0

/-- The `worked` cell of `WorkDay.columns` (timesheet.py lines 75-78): the
figure when the day is consistent, the table placeholder (`none`)
otherwise. -/
def WorkDay.workedColumn (d : WorkDay) (now : Int) : Option Int :=
  if d.consistent then some (d.work_time now) else none

/-- `arrow`'s `time.floor('day')`: the epoch second of the start of the
calendar day containing `t` (UTC embedding of the local-time floor). -/
def floorDay (t : Int) : Int :=
  t - t.emod 86400

/-- The loop state of `collect` (timesheet.py lines 86-88): the current
open day, the pending `paused` time, and `last_stamp`. -/
structure AggState where
  day : Option WorkDay
  paused : Option Int
  lastStamp : Option Stamp
deriving DecidableEq, Repr

/-- Initial loop state of `collect`: `day = paused = last_stamp = None`. -/
def initState : AggState := ⟨none, none, none⟩

/-- One iteration of the `collect` loop body (timesheet.py lines 89-125)
on one stamp: the list of WorkDays yielded during this iteration, and the
updated loop state. -/
def step (stamp : Stamp) (st : AggState) : List WorkDay × AggState :=
  -- lines 90-94: displace the open day (tainting it) on IN or start fresh
  let (out1, d1) : List WorkDay × WorkDay :=
    match st.day with
    | none => ([], {})
    | some d =>
        if stamp.transition = Transition.IN then
          ([{ d with invalid_transitions := true }], {})
        else
          ([], d)
  -- line 96-97: adjacency / ordering violation taints the current day
  let d2 :=
    if stamp.transition ≠ Transition.IN ∧ stamp.mayFollow st.lastStamp = false then
      { d1 with invalid_transitions := true }
    else d1
  -- lines 99-100: the day's date is set from its first stamp
  let d3 :=
    if d2.date = none then { d2 with date := some (floorDay stamp.time) } else d2
  -- lines 102-115: effect of the transition kind
  let (d4, paused1) : WorkDay × Option Int :=
    match stamp.transition with
    | Transition.IN =>
        ({ d3 with begin := some stamp.time, state := some DayState.WORKING }, st.paused)
    | Transition.OUT =>
        ({ d3 with end_ := some stamp.time, state := some DayState.ABSENT }, st.paused)
    | Transition.PAUSE =>
        ({ d3 with state := some DayState.PAUSING }, some stamp.time)
    | Transition.RESUME =>
        (match st.paused with
         | some p =>
             { d3 with pause_time := d3.pause_time + (stamp.time - p),
                       state := some DayState.WORKING }
         | none => { d3 with state := some DayState.WORKING },
         none)
    | Transition.TAG => (d3, st.paused)
  -- lines 117-118 (`day` is never None at this point in the loop)
  let d5 :=
    if stamp.details ≠ "" then { d4 with tags := d4.tags ++ [stamp.details] } else d4
  -- lines 120-122: OUT closes (yields) the current day
  let (out2, day') : List WorkDay × Option WorkDay :=
    if stamp.transition = Transition.OUT then ([d5], none) else ([], some d5)
  -- lines 123-124: any non-PAUSE stamp clears a stray pending pause
  let paused2 := if stamp.transition ≠ Transition.PAUSE then none else paused1
  (out1 ++ out2, ⟨day', paused2, some stamp⟩)

/-- The `collect` loop (timesheet.py lines 89-125) over a stamp list:
all WorkDays yielded inside the loop, and the final loop state. -/
def runSteps (st : AggState) : List Stamp → List WorkDay × AggState
  | [] => ([], st)
  | s :: rest =>
      ((step s st).1 ++ (runSteps (step s st).2 rest).1, (runSteps (step s st).2 rest).2)

/-- The tail of `collect` (timesheet.py lines 127-131): a still-open day is
yielded after the input is exhausted, with an open pause extended to
`now`. -/
def finalize (now : Int) (st : AggState) : List WorkDay :=
  match st.day with
  | none => []
  | some d =>
      [match st.paused with
       | none => d
       | some p => { d with pause_time := d.pause_time + (now - p) }]

/-- `collect` (timesheet.py lines 85-131): fold a chronologically ordered
stamp list into the sequence of yielded WorkDays. -/
def collect (now : Int) (stamps : List Stamp) : List WorkDay :=
  (runSteps initState stamps).1 ++ finalize now (runSteps initState stamps).2

/-- The step function never leaves a closed (`end` set) day open: `end_` is
only assigned on OUT, and an OUT iteration always yields the day and resets
the current day to `None`. -/
theorem step_open_day_end_none (s : Stamp) (st : AggState)
    (h : ∀ d, st.day = some d → d.end_ = none) :
    ∀ d', (step s st).2.day = some d' → d'.end_ = none := by
  intro d' hd'
  cases hst : st.day with
  | none =>
      cases htr : s.transition <;>
        simp [step, hst, htr] at hd' <;>
        (repeat' split at hd') <;>
        (try subst hd') <;>
        simp_all
  | some d =>
      have hend := h d hst
      cases htr : s.transition <;>
        simp [step, hst, htr] at hd' <;>
        (repeat' split at hd') <;>
        (try subst hd') <;>
        simp_all

/-- C10: after the input is exhausted, a still-open day never has its `end`
field set: the `assert day.end is None` at the tail of `collect`
(timesheet.py line 128) can never fail, because a day whose `end` was set by
an OUT stamp is always yielded at that stamp and the current day reset. -/
theorem collect_trailing_day_end_absent :
    ∀ (stamps : List Stamp) (d : WorkDay),
      (runSteps initState stamps).2.day = some d → d.end_ = none := by
  have main : ∀ (stamps : List Stamp) (st : AggState),
      (∀ d, st.day = some d → d.end_ = none) →
      ∀ d, (runSteps st stamps).2.day = some d → d.end_ = none := by
    intro stamps
    induction stamps with
    | nil => intro st hst d hd; exact hst d hd
    | cons s rest ih =>
        intro st hst d hd
        exact ih (step s st).2 (step_open_day_end_none s st hst) d hd
  intro stamps d hd
  exact main stamps initState (by intro d hd; simp [initState] at hd) d hd

/-- Witness for C10 at a concrete input: after a lone `IN` stamp the loop
state holds an open day, and its `end` field is absent. -/
theorem collect_trailing_day_end_absent_witness :
    (runSteps initState [⟨Transition.IN, 100, ""⟩]).2.day =
        some { date := some 0, begin := some 100, state := some DayState.WORKING } ∧
      ({ date := some 0, begin := some 100,
         state := some DayState.WORKING } : WorkDay).end_ = none :=
  ⟨by decide,
   collect_trailing_day_end_absent [⟨Transition.IN, 100, ""⟩]
     { date := some 0, begin := some 100, state := some DayState.WORKING } (by decide)⟩

/-- The four stamps of the §8 pause-accounting property, on 2024-01-02 UTC:
`IN@08:00, PAUSE@12:00, RESUME@12:30, OUT@16:00` as epoch seconds. -/
def pauseExampleStamps : List Stamp :=
  [⟨Transition.IN, 1704182400, ""⟩, ⟨Transition.PAUSE, 1704196800, ""⟩,
   ⟨Transition.RESUME, 1704198600, ""⟩, ⟨Transition.OUT, 1704211200, ""⟩]

/-- The single WorkDay the aggregator produces for
`pauseExampleStamps`: begun 08:00, ended 16:00, 30 minutes of pause. -/
def pauseExampleDay : WorkDay :=
  { date := some 1704153600, begin := some 1704182400, end_ := some 1704211200,
    pause_time := 1800, tags := [], invalid_transitions := false,
    state := some DayState.ABSENT }

/-- C5: for the input `IN@08:00, PAUSE@12:00, RESUME@12:30, OUT@16:00` and
any `now` after 16:00, the aggregator yields exactly one WorkDay, with
`pause_time` of 30 minutes (1800 s) and `work_time` of 7 h 30 min
(27000 s), computed as `(end - begin) - pause_time`. -/
theorem collect_pause_accounting :
    ∀ now : Int, 1704211200 < now →
      collect now pauseExampleStamps = [pauseExampleDay] ∧
      pauseExampleDay.pause_time = 1800 ∧
      pauseExampleDay.work_time now = 27000 ∧
      pauseExampleDay.work_time now =
        (pauseExampleDay.end_.getD now - pauseExampleDay.begin.getD 0) -
          pauseExampleDay.pause_time := by
  intro now _
  refine ⟨rfl, rfl, rfl, rfl⟩

/-- Witness for C5 at the concrete `now` one second after 16:00. -/
theorem collect_pause_accounting_witness :
    collect 1704211201 pauseExampleStamps = [pauseExampleDay] ∧
    pauseExampleDay.pause_time = 1800 ∧
    pauseExampleDay.work_time 1704211201 = 27000 ∧
    pauseExampleDay.work_time 1704211201 =
      (pauseExampleDay.end_.getD 1704211201 - pauseExampleDay.begin.getD 0) -
        pauseExampleDay.pause_time :=
  collect_pause_accounting 1704211201 (by decide)

/-- `runSteps` splits over list append: the loop runs the first chunk, then
the second from the resulting state. -/
theorem runSteps_append (xs ys : List Stamp) :
    ∀ st, runSteps st (xs ++ ys) =
      ((runSteps st xs).1 ++ (runSteps (runSteps st xs).2 ys).1,
       (runSteps (runSteps st xs).2 ys).2) := by
  induction xs with
  | nil => intro st; simp [runSteps]
  | cons s xs ih => intro st; simp [runSteps, ih]

/-- Any stamp other than OUT leaves the loop with an open day. -/
theorem step_day_isSome (s : Stamp) (st : AggState)
    (h : s.transition ≠ Transition.OUT) :
    ((step s st).2.day).isSome = true := by
  cases hst : st.day <;> cases htr : s.transition <;> simp_all [step]

/-- An OUT stamp always yields at least one WorkDay in its iteration. -/
theorem step_out_emits (s : Stamp) (st : AggState)
    (h : s.transition = Transition.OUT) :
    1 ≤ (step s st).1.length := by
  cases hst : st.day <;> simp_all [step]

/-- An IN stamp arriving while a day is open yields exactly that day,
marked `invalid_transitions = true` (timesheet.py lines 90-93). -/
theorem step_in_emits_taint (s : Stamp) (st : AggState) (d : WorkDay)
    (h : s.transition = Transition.IN) (hst : st.day = some d) :
    (step s st).1 = [{ d with invalid_transitions := true }] := by
  simp [step, hst, h]

/-- Running stamps none of which is OUT keeps the current day open. -/
theorem runSteps_day_isSome (xs : List Stamp) :
    ∀ st : AggState, (∀ s ∈ xs, s.transition ≠ Transition.OUT) →
      st.day.isSome = true → ((runSteps st xs).2.day).isSome = true := by
  induction xs with
  | nil => intro st _ h; simpa [runSteps] using h
  | cons s xs ih =>
      intro st hno _
      have h1 : ((step s st).2.day).isSome = true :=
        step_day_isSome s st (hno s (by simp))
      have h2 := ih (step s st).2 (fun t ht => hno t (by simp [ht])) h1
      simpa [runSteps] using h2

/-- From a state with an open day, the remaining loop plus the tail of
`collect` emit at least one more WorkDay: aggregation never drops an open
day, whatever the remaining input. -/
theorem runSteps_emits_of_open (now : Int) (xs : List Stamp) :
    ∀ st : AggState, st.day.isSome = true →
      1 ≤ ((runSteps st xs).1 ++ finalize now (runSteps st xs).2).length := by
  induction xs with
  | nil =>
      intro st h
      obtain ⟨d, hd⟩ := Option.isSome_iff_exists.mp h
      simp [runSteps, finalize, hd]
  | cons s xs ih =>
      intro st h
      by_cases hout : s.transition = Transition.OUT
      · have h1 := step_out_emits s st hout
        simp only [runSteps, List.length_append] at *
        omega
      · have h1 := step_day_isSome s st hout
        have h2 := ih (step s st).2 h1
        simp only [runSteps, List.length_append] at *
        omega

/-- C4: an IN stamp arriving while a WorkDay is open marks the open day
`invalid_transitions = true`, emits it, and starts a fresh day; hence any
stamp sequence containing two IN stamps with no intervening OUT yields a
tainted WorkDay followed by at least one further WorkDay (so at least two
records in total), and aggregation never stops on the inconsistency. -/
theorem collect_in_while_open :
    ∀ (now : Int) (pre mid post : List Stamp) (s1 s2 : Stamp),
      s1.transition = Transition.IN → s2.transition = Transition.IN →
      (∀ s ∈ mid, s.transition ≠ Transition.OUT) →
      ∃ (before after : List WorkDay) (d : WorkDay),
        collect now (pre ++ s1 :: (mid ++ s2 :: post)) = before ++ d :: after ∧
        d.invalid_transitions = true ∧
        1 ≤ after.length ∧
        2 ≤ (collect now (pre ++ s1 :: (mid ++ s2 :: post))).length := by
  intro now pre mid post s1 s2 h1 h2 hmid
  have hnotout1 : s1.transition ≠ Transition.OUT := by simp [h1]
  have hnotout2 : s2.transition ≠ Transition.OUT := by simp [h2]
  have hopenB :
      (((runSteps (step s1 (runSteps initState pre).2).2 mid).2).day).isSome = true :=
    runSteps_day_isSome mid _ hmid (step_day_isSome s1 _ hnotout1)
  obtain ⟨dOpen, hdOpen⟩ := Option.isSome_iff_exists.mp hopenB
  have htaint :
      (step s2 (runSteps (step s1 (runSteps initState pre).2).2 mid).2).1
        = [{ dOpen with invalid_transitions := true }] :=
    step_in_emits_taint s2 _ dOpen h2 hdOpen
  have hopen2 :
      ((step s2 (runSteps (step s1 (runSteps initState pre).2).2 mid).2).2.day).isSome
        = true :=
    step_day_isSome s2 _ hnotout2
  have hafter := runSteps_emits_of_open now post _ hopen2
  have heq :
      collect now (pre ++ s1 :: (mid ++ s2 :: post)) =
        ((runSteps initState pre).1 ++ ((step s1 (runSteps initState pre).2).1
            ++ (runSteps (step s1 (runSteps initState pre).2).2 mid).1)) ++
          ({ dOpen with invalid_transitions := true } ::
            ((runSteps (step s2 (runSteps (step s1 (runSteps initState pre).2).2 mid).2).2
                post).1 ++
              finalize now
                (runSteps (step s2 (runSteps (step s1 (runSteps initState pre).2).2 mid).2).2
                  post).2)) := by
    have hsplit : pre ++ s1 :: (mid ++ s2 :: post)
        = pre ++ ((s1 :: mid) ++ (s2 :: post)) := by simp
    rw [collect, hsplit, runSteps_append, runSteps_append]
    simp only [runSteps]
    rw [htaint]
    simp
  refine ⟨_, _, { dOpen with invalid_transitions := true }, heq, rfl, ?_, ?_⟩
  · simpa using hafter
  · rw [heq]
    simp only [List.length_append, List.length_cons]
    simp only [List.length_append] at hafter
    omega

/-- Witness for C4 at a concrete input: two bare IN stamps with nothing in
between yield the first day tainted and a second, still-open day. -/
theorem collect_in_while_open_witness :
    ∃ (before after : List WorkDay) (d : WorkDay),
      collect 1000 ([] ++ ⟨Transition.IN, 100, ""⟩ ::
          ([] ++ ⟨Transition.IN, 200, ""⟩ :: [])) = before ++ d :: after ∧
      d.invalid_transitions = true ∧
      1 ≤ after.length ∧
      2 ≤ (collect 1000 ([] ++ ⟨Transition.IN, 100, ""⟩ ::
          ([] ++ ⟨Transition.IN, 200, ""⟩ :: []))).length :=
  collect_in_while_open 1000 [] [] [] ⟨Transition.IN, 100, ""⟩ ⟨Transition.IN, 200, ""⟩
    rfl rfl (by intro s hs; simp at hs)

/-- `arrow`'s `date.floor('week')`: the epoch second of the Monday 00:00
starting the ISO week containing `t` (epoch day 0, 1970-01-01, was a
Thursday). -/
def floorWeek (t : Int) : Int :=
  86400 * (t.fdiv 86400 - (t.fdiv 86400 + 3).emod 7)

/-- `day.date.floor('week')` as used by `time_table` (timesheet.py line
160) and `week_table` (line 187).  `date` is always set on a day emitted by
`collect`; the `getD 0` default mirrors that Python would fault on a day
without a date. -/
def weekOf (d : WorkDay) : Int :=
  floorWeek (d.date.getD 0)

/-- The week-total fold of `time_table` (timesheet.py lines 146-174),
keeping only its observable accounting: the `(week_work_time,
week_time_is_lower_bound)` pair recorded by each `print_total()` call, in
order.  `lastWeek`, `acc` and `lower` are the loop's `last_week`,
`week_work_time` and `week_time_is_lower_bound`. -/
def timeTableAux (now : Int) : Option Int → Int → Bool → List WorkDay → List (Int × Bool)
  | _, acc, lower, [] => [(acc, lower)]
  | lastWeek, acc, lower, d :: rest =>
      match lastWeek with
      | some lw =>
          if lw < weekOf d then
            (acc, lower) ::
              timeTableAux now (some (weekOf d)) (0 + d.work_time now)
                (false || !d.consistent) rest
          else
            timeTableAux now (some (weekOf d)) (acc + d.work_time now)
              (lower || !d.consistent) rest
      | none =>
          timeTableAux now (some (weekOf d)) (acc + d.work_time now)
            (lower || !d.consistent) rest

/-- All week totals printed by `time_table` for a day list (the trailing
`print_total()` included). -/
def timeTableTotals (now : Int) (days : List WorkDay) : List (Int × Bool) :=
  timeTableAux now none 0 false days

/-- Partition of a day list into maximal runs of consecutive days sharing
a `floor('week')` key, used to state what the totals of `time_table`
cover. -/
def weekChunksAux (w : Int) (cur : List WorkDay) : List WorkDay → List (List WorkDay)
  | [] => [cur]
  | d :: rest =>
      if weekOf d = w then weekChunksAux w (cur ++ [d]) rest
      else cur :: weekChunksAux (weekOf d) [d] rest

/-- The consecutive same-week chunks of a day list. -/
def weekChunks : List WorkDay → List (List WorkDay)
  | [] => []
  | d :: rest => weekChunksAux (weekOf d) [d] rest

/-- Accumulated `work_time` of a run of days, as `time_table` accumulates
`week_work_time` (timesheet.py line 168). -/
def groupTotal (now : Int) (g : List WorkDay) : Int :=
  g.foldl (fun acc d => acc + d.work_time now) 0

/-- Whether a run of days trips `week_time_is_lower_bound`
(timesheet.py lines 169-170): true iff some day of the run is
inconsistent. -/
def groupLower (g : List WorkDay) : Bool :=
  g.any (fun d => !d.consistent)

/-- Folding `work_time` over a day list equals folding it over its
consistent days only: an inconsistent day's `work_time` is zero. -/
theorem foldl_work_time_filter (now : Int) :
    ∀ (g : List WorkDay) (acc : Int),
      g.foldl (fun acc d => acc + d.work_time now) acc
        = (g.filter (fun d => d.consistent)).foldl
            (fun acc d => acc + d.work_time now) acc := by
  intro g
  induction g with
  | nil => intro acc; rfl
  | cons d g ih =>
      intro acc
      by_cases hc : d.consistent = true
      · simp [List.filter_cons, hc, ih]
      · have hwt : d.work_time now = 0 := by
          simp [WorkDay.work_time, hc]
        simp [List.filter_cons, hc, ih, hwt]

/-- `groupTotal` counted over the consistent days only. -/
theorem groupTotal_eq_filter (now : Int) (g : List WorkDay) :
    groupTotal now g
      = (g.filter (fun d => d.consistent)).foldl
          (fun acc d => acc + d.work_time now) 0 :=
  foldl_work_time_filter now g 0

/-- With nondecreasing week keys ahead, the `time_table` fold emits exactly
one `(total, lower-bound)` pair per consecutive same-week chunk. -/
theorem timeTableAux_eq_chunks (now : Int) :
    ∀ (rest : List WorkDay) (w : Int) (cur : List WorkDay),
      (∀ x ∈ rest, w ≤ weekOf x) →
      List.Pairwise (fun a b => weekOf a ≤ weekOf b) rest →
      timeTableAux now (some w) (groupTotal now cur) (groupLower cur) rest
        = (weekChunksAux w cur rest).map (fun g => (groupTotal now g, groupLower g)) := by
  intro rest
  induction rest with
  | nil =>
      intro w cur _ _
      simp [timeTableAux, weekChunksAux]
  | cons d rest ih =>
      intro w cur hge hpw
      obtain ⟨hd_rest, hrest⟩ := List.pairwise_cons.mp hpw
      have hd : w ≤ weekOf d := hge d (by simp)
      by_cases hw : weekOf d = w
      · have hnlt : ¬ w < weekOf d := by omega
        have hacc : groupTotal now cur + d.work_time now = groupTotal now (cur ++ [d]) := by
          simp [groupTotal, List.foldl_append]
        have hlow : (groupLower cur || !d.consistent) = groupLower (cur ++ [d]) := by
          simp [groupLower, List.any_append]
        rw [timeTableAux]
        simp only [hnlt, if_false]
        rw [hacc, hlow, hw]
        rw [ih w (cur ++ [d]) (fun x hx => hw ▸ hd_rest x hx) hrest]
        rw [weekChunksAux]
        simp [hw]
      · have hlt : w < weekOf d := lt_of_le_of_ne hd (fun h => hw h.symm)
        have hacc : (0 : Int) + d.work_time now = groupTotal now [d] := by
          simp [groupTotal]
        have hlow : (false || !d.consistent) = groupLower [d] := by
          simp [groupLower]
        rw [timeTableAux]
        simp only [hlt, if_true]
        rw [hacc, hlow]
        rw [ih (weekOf d) [d] (fun x hx => hd_rest x hx) hrest]
        rw [weekChunksAux]
        simp [hw]

/-- Every chunk produced by `weekChunksAux` consists of days of a single
calendar week. -/
theorem weekChunksAux_same_week :
    ∀ (rest : List WorkDay) (w : Int) (cur : List WorkDay),
      (∀ x ∈ cur, weekOf x = w) →
      ∀ g ∈ weekChunksAux w cur rest, ∀ a ∈ g, ∀ b ∈ g, weekOf a = weekOf b := by
  intro rest
  induction rest with
  | nil =>
      intro w cur hcur g hg a ha b hb
      simp [weekChunksAux] at hg
      subst hg
      rw [hcur a ha, hcur b hb]
  | cons d rest ih =>
      intro w cur hcur g hg a ha b hb
      by_cases hw : weekOf d = w
      · rw [weekChunksAux] at hg
        simp only [hw, if_true] at hg
        refine ih w (cur ++ [d]) ?_ g hg a ha b hb
        intro x hx
        rcases List.mem_append.mp hx with h | h
        · exact hcur x h
        · simp at h
          subst h
          exact hw
      · rw [weekChunksAux] at hg
        simp only [hw, if_false] at hg
        rcases List.mem_cons.mp hg with hg | hg
        · subst hg
          rw [hcur a ha, hcur b hb]
        · refine ih (weekOf d) [d] ?_ g hg a ha b hb
          intro x hx
          simp at hx
          subst hx
          rfl

/-- C6: for a chronologically ordered (nondecreasing week key) nonempty
WorkDay list, `time_table` prints one total per calendar-week chunk; each
total is the sum of `work_time(day, now)` over that chunk's consistent
days (inconsistent days contribute nothing), and it is flagged as a lower
bound iff some day of the chunk is inconsistent.  Each chunk lies within a
single calendar week, and the `worked` cell of a row is the placeholder
exactly for an inconsistent day. -/
theorem time_table_week_totals :
    ∀ (now : Int) (days : List WorkDay),
      days ≠ [] →
      List.Pairwise (fun a b => weekOf a ≤ weekOf b) days →
      (timeTableTotals now days =
        (weekChunks days).map (fun g =>
          ((g.filter (fun d => d.consistent)).foldl
              (fun acc d => acc + d.work_time now) 0,
           g.any (fun d => !d.consistent)))) ∧
      (∀ g ∈ weekChunks days, ∀ a ∈ g, ∀ b ∈ g, weekOf a = weekOf b) ∧
      (∀ d : WorkDay, d.workedColumn now = none ↔ d.consistent = false) := by
  intro now days hnil hpw
  obtain ⟨d, rest, rfl⟩ := List.exists_cons_of_ne_nil hnil
  obtain ⟨hd_rest, hrest⟩ := List.pairwise_cons.mp hpw
  refine ⟨?_, ?_, ?_⟩
  · have hacc : (0 : Int) + d.work_time now = groupTotal now [d] := by
      simp [groupTotal]
    have hlow : (false || !d.consistent) = groupLower [d] := by
      simp [groupLower]
    rw [timeTableTotals, timeTableAux]
    rw [hacc, hlow]
    rw [timeTableAux_eq_chunks now rest (weekOf d) [d] (fun x hx => hd_rest x hx) hrest]
    rw [weekChunks]
    simp only [groupTotal_eq_filter, groupLower]
  · intro g hg
    rw [weekChunks] at hg
    exact weekChunksAux_same_week rest (weekOf d) [d] (by simp) g hg
  · intro d'
    by_cases hc : d'.consistent = true <;>
      simp [WorkDay.workedColumn, hc]

/-- Witness for C6 at a concrete input: one consistent day followed by an
inconsistent day of the same week — one chunk, total from the consistent
day only, flagged as a lower bound. -/
theorem time_table_week_totals_witness :
    (timeTableTotals 500 [{ date := some 0, begin := some 100, end_ := some 200 },
        { date := some 0, begin := some 300, invalid_transitions := true }] =
      (weekChunks [{ date := some 0, begin := some 100, end_ := some 200 },
          { date := some 0, begin := some 300, invalid_transitions := true }]).map
        (fun g =>
          ((g.filter (fun d => d.consistent)).foldl
              (fun acc d => acc + d.work_time 500) 0,
           g.any (fun d => !d.consistent)))) ∧
    (∀ g ∈ weekChunks [{ date := some 0, begin := some 100, end_ := some 200 },
        { date := some 0, begin := some 300, invalid_transitions := true }],
      ∀ a ∈ g, ∀ b ∈ g, weekOf a = weekOf b) ∧
    (∀ d : WorkDay, d.workedColumn 500 = none ↔ d.consistent = false) :=
  time_table_week_totals 500
    [{ date := some 0, begin := some 100, end_ := some 200 },
     { date := some 0, begin := some 300, invalid_transitions := true }]
    (by simp) (by decide)

/-- `Category` (schedule.py lines 45-51): an `IntEnum` ordered by severity
`WORK_DAY < VACATION < SICK < HOLIDAY < WEEKEND`. -/
inductive Category where
  | WORK_DAY
  | VACATION
  | SICK
  | HOLIDAY
  | WEEKEND
deriving DecidableEq, Repr, Fintype

/-- The `IntEnum` value of a `Category` (schedule.py lines 47-51). -/
def Category.toNat : Category → Nat
  | Category.WORK_DAY => 0
  | Category.VACATION => 1
  | Category.SICK => 2
  | Category.HOLIDAY => 3
  | Category.WEEKEND => 4

/-- Python's `max` on two `IntEnum` values: the second when strictly
greater, the first otherwise. -/
def catMax (a b : Category) : Category :=
  if a.toNat < b.toNat then b else a

/-- A `datetime.date` value: calendar year/month/day. -/
structure Date where
  year : Nat
  month : Nat
  day : Nat
deriving DecidableEq, Repr

/-- `datetime.date.weekday()` (Monday = 0) by Zeller's congruence, for
Gregorian dates with positive year. -/
def pyWeekday (d : Date) : Nat :=
  let y := if d.month ≤ 2 then d.year - 1 else d.year
  let m := if d.month ≤ 2 then d.month + 12 else d.month
  let h := (d.day + (13 * (m + 1)) / 5 + y % 100 + (y % 100) / 4 +
            (y / 100) / 4 + 5 * (y / 100)) % 7
  (h + 5) % 7

/-- One schedule event tuple `(date, category, recurring, summary)`
(schedule.py line 78 / 136). -/
structure SEvent where
  date : Date
  category : Category
  recurring : Bool
  summary : Option String
deriving DecidableEq, Repr

/-- `Schedule` (schedule.py lines 61-65) with its constructor defaults:
working days Monday-Friday, no required hours, no events. -/
structure Schedule where
  working_days : List Nat := [0, 1, 2, 3, 4]
  hours_per_week : Option ℚ := none
  events : List SEvent := []
deriving DecidableEq, Repr

/-- The comparison `day == date` of schedule.py line 79.  `day` is an
`Arrow`, while the event dates are `datetime.date` values in both
provenance paths (`Schedule.load` reads toml local dates, `import_ical`
appends `d.date()`), and `Arrow.__eq__` returns `False` for any operand
that is not an `Arrow` or a `datetime.datetime` — so the comparison is
unconditionally false, whatever the two calendar dates are. -/
def arrowEqDate (_day _eventDate : Date) : Bool :=
  false

/-- The event-match test of `Schedule.categorize` (schedule.py line 79):
`(not recurring and day == date) or (recurring and day ==
date.replace(year=day.year))`, with `==` being `arrowEqDate` — hence never
true.  `date.replace` is modelled as a total field update; Python would
raise `ValueError` for a recurring Feb-29 event in a non-leap target year
before the comparison. -/
def eventMatches (day : Date) (e : SEvent) : Bool :=
  (!e.recurring && arrowEqDate day e.date) ||
    (e.recurring && arrowEqDate day { e.date with year := day.year })

/-- `Schedule.categorize` (schedule.py lines 73-81): `WEEKEND` whenever the
weekday is not a working day; otherwise the running `max` over the
categories of all matching events, starting from `WORK_DAY`.  Since
`eventMatches` is never true, the fold never raises the category. -/
def Schedule.categorize (s : Schedule) (day : Date) : Category :=
  if pyWeekday day ∈ s.working_days then
    s.events.foldl
      (fun cat e => if eventMatches day e then catMax cat e.category else cat)
      Category.WORK_DAY
  else Category.WEEKEND

/-- Modelled from the spec: the event-match test of §4.3 — "exact date
match, or year-normalized match when `recurring`" — which the code intends
on schedule.py line 79 but never achieves (see `eventMatches`). -/
def eventMatches_spec (day : Date) (e : SEvent) : Bool :=
  (!e.recurring && decide (e.date = day)) ||
    (e.recurring && decide (({ e.date with year := day.year } : Date) = day))

/-- Modelled from the spec: `categorize` per §4.3 — weekend override, then
the severity maximum of `WORK_DAY` and the categories of all matching
events. -/
def categorize_spec (s : Schedule) (day : Date) : Category :=
  if pyWeekday day ∈ s.working_days then
    s.events.foldl
      (fun cat e => if eventMatches_spec day e then catMax cat e.category else cat)
      Category.WORK_DAY
  else Category.WEEKEND

/-- No event ever matches: both disjuncts of the line-79 test go through
the always-false `Arrow`-to-`date` comparison. -/
theorem eventMatches_false (day : Date) (e : SEvent) :
    eventMatches day e = false := by
  simp [eventMatches, arrowEqDate]

/-- The category fold of `categorize` never moves off its start value,
because its match test is never true. -/
theorem categorize_fold_const (day : Date) :
    ∀ (events : List SEvent) (c : Category),
      events.foldl
          (fun cat e => if eventMatches day e then catMax cat e.category else cat)
          c = c := by
  intro events
  induction events with
  | nil => intro c; rfl
  | cons e evs ih =>
      intro c
      have hstep : (if eventMatches day e then catMax c e.category else c) = c := by
        simp [eventMatches_false]
      rw [List.foldl_cons, hstep]
      exact ih c

/-- C7 (code bug): `categorize` never applies any event.  `day` is an
`Arrow` while the stored event dates are `datetime.date`s, and arrow's
equality with a `datetime.date` is unconditionally false, so the line-79
match test never fires: the code returns `WEEKEND` off working days and
plain `WORK_DAY` otherwise, whatever the events.  On the claim's own
example — a working-day date matching both a recurring `HOLIDAY` and a
non-recurring `VACATION` — the code yields `WORK_DAY` where the claim
(and the spec-modelled `categorize_spec`) yields `HOLIDAY`. -/
theorem categorize_never_applies_events :
    (∀ (s : Schedule) (day : Date),
      s.categorize day =
        if pyWeekday day ∈ s.working_days then Category.WORK_DAY
        else Category.WEEKEND) ∧
    Schedule.categorize
        { events := [⟨⟨2020, 1, 1⟩, Category.HOLIDAY, true, none⟩,
                     ⟨⟨2024, 1, 1⟩, Category.VACATION, false, none⟩] }
        ⟨2024, 1, 1⟩ = Category.WORK_DAY ∧
    categorize_spec
        { events := [⟨⟨2020, 1, 1⟩, Category.HOLIDAY, true, none⟩,
                     ⟨⟨2024, 1, 1⟩, Category.VACATION, false, none⟩] }
        ⟨2024, 1, 1⟩ = Category.HOLIDAY := by
  refine ⟨?_, by decide, by decide⟩
  intro s day
  rw [Schedule.categorize]
  split
  · exact categorize_fold_const day s.events Category.WORK_DAY
  · rfl

/-- The three closing messages of the current-week summary
(timesheet.py lines 199-204). -/
inductive WeekMessage where
  | toGo (hours : ℚ)
  | overtime (hours : ℚ)
  | justOnTime
deriving DecidableEq, Repr

/-- Observable content of the current-week summary line
(timesheet.py lines 192-204): worked hours, required hours, the printed
percentage, and the closing message. -/
structure WeekSummary where
  hoursWorked : ℚ
  hoursRequired : ℚ
  percent : ℚ
  message : WeekMessage
deriving DecidableEq, Repr

/-- The current-week accumulation of `week_table` (timesheet.py lines
183-190): walk the day list newest-first and sum `work_time` until the
first day outside the week containing `now`. -/
def currentWeekWorkTime (workDays : List WorkDay) (now : Int) : Int :=
  (workDays.reverse.takeWhile (fun d => decide (weekOf d = floorWeek now))).foldl
    (fun acc d => acc + d.work_time now) 0

/-- The summary computation of `week_table` (timesheet.py lines 192-204):
nothing when `hours_per_week` is absent; otherwise worked hours
(`work_time.total_seconds() / 3600`) against `hours_per_week` itself, the
percentage, and the to-go / overtime / just-on-time message. -/
def weekSummary : Option ℚ → Int → Option WeekSummary
  | none, _ => none
  | some hpw, workTime =>
      some { hoursWorked := (workTime : ℚ) / 3600,
             hoursRequired := hpw,
             percent := 100 * ((workTime : ℚ) / 3600) / hpw,
             message :=
               if (workTime : ℚ) / 3600 < hpw then
                 WeekMessage.toGo (hpw - (workTime : ℚ) / 3600)
               else if hpw < (workTime : ℚ) / 3600 then
                 WeekMessage.overtime ((workTime : ℚ) / 3600 - hpw)
               else WeekMessage.justOnTime }

/-- The full current-week summary of `week_table`: the accumulated week
work time fed into the comparison against `schedule.hours_per_week`. -/
def weekTableSummary (s : Schedule) (workDays : List WorkDay) (now : Int) :
    Option WeekSummary :=
  weekSummary s.hours_per_week (currentWeekWorkTime workDays now)

/-- Modelled from the spec: `working_hours_in_week` (spec §4.3) — required
hours for a calendar week = `hours_per_week / count(working_days) * (number
of days of that week categorized as working days)`, counting days via the
spec-modelled `categorize_spec`.  No such function exists in the source
(schedule.py defines only the unused `hours_per_day`, and `week_table`
compares against `hours_per_week` directly); this definition follows the
spec's words, for comparison with the code. -/
def workingHoursInWeek_spec (s : Schedule) (weekDates : List Date) : ℚ :=
  match s.hours_per_week with
  | none => 0
  | some hpw =>
      hpw / (s.working_days.length : ℚ) *
        ((weekDates.filter
            (fun d => decide (categorize_spec s d = Category.WORK_DAY))).length : ℚ)

/-- A schedule with 40 required hours, default working days, and a
holiday on Monday 2024-01-01. -/
def cxSchedule : Schedule :=
  { hours_per_week := some 40,
    events := [⟨⟨2024, 1, 1⟩, Category.HOLIDAY, false, none⟩] }

/-- The seven dates of the calendar week 2024-01-01 … 2024-01-07. -/
def cxWeekDates : List Date :=
  [⟨2024, 1, 1⟩, ⟨2024, 1, 2⟩, ⟨2024, 1, 3⟩, ⟨2024, 1, 4⟩,
   ⟨2024, 1, 5⟩, ⟨2024, 1, 6⟩, ⟨2024, 1, 7⟩]

/-- Counterexample to C8: with a holiday on a working day of the current
week, the code's summary still requires the raw 40 `hours_per_week`, while
the claimed scaled requirement `working_hours_in_week` is 40 / 5 * 4 = 32;
the code does not scale the requirement down. -/
theorem week_summary_required_hours_counterexample :
    (weekTableSummary cxSchedule [] 0).map WeekSummary.hoursRequired = some 40 ∧
    workingHoursInWeek_spec cxSchedule cxWeekDates = 32 ∧
    (40 : ℚ) ≠ 32 := by
  refine ⟨rfl, ?_, by norm_num⟩
  have hlen : (cxWeekDates.filter
      (fun d => decide (categorize_spec cxSchedule d = Category.WORK_DAY))).length = 4 := by
    decide
  rw [workingHoursInWeek_spec]
  simp only [cxSchedule] at hlen ⊢
  rw [hlen]
  norm_num

/-- C8 amended: whenever `hours_per_week` is present the current-week
summary exists and compares the accumulated worked hours against
`hours_per_week` itself (the requirement is not scaled by the week's
working days), reporting the percentage complete and a remaining-hours,
overtime, or exact-match message according to the comparison. -/
theorem week_summary_compares_raw_hours :
    ∀ (s : Schedule) (workDays : List WorkDay) (now : Int) (h : ℚ),
      s.hours_per_week = some h →
      ∃ sum : WeekSummary,
        weekTableSummary s workDays now = some sum ∧
        sum.hoursRequired = h ∧
        sum.hoursWorked = (currentWeekWorkTime workDays now : ℚ) / 3600 ∧
        sum.percent = 100 * sum.hoursWorked / h ∧
        (sum.message = WeekMessage.toGo (h - sum.hoursWorked) ↔ sum.hoursWorked < h) ∧
        (sum.message = WeekMessage.overtime (sum.hoursWorked - h) ↔ h < sum.hoursWorked) ∧
        (sum.message = WeekMessage.justOnTime ↔ sum.hoursWorked = h) := by
  intro s workDays now h hh
  rw [weekTableSummary, hh]
  simp only [weekSummary]
  refine ⟨_, rfl, rfl, rfl, rfl, ?_, ?_, ?_⟩ <;>
    rcases lt_trichotomy ((currentWeekWorkTime workDays now : ℚ) / 3600) h with
      hlt | heq | hgt
  · simp [if_pos hlt, hlt]
  · simp [if_neg (not_lt_of_le (le_of_eq heq)), heq]
  · simp [if_neg (not_lt_of_le (le_of_lt hgt)), if_pos hgt, not_lt_of_le (le_of_lt hgt)]
  · simp [if_pos hlt, not_lt_of_le (le_of_lt hlt)]
  · simp [if_neg (not_lt_of_le (le_of_eq heq)),
          if_neg (not_lt_of_le (ge_of_eq heq)), heq]
  · simp [if_neg (not_lt_of_le (le_of_lt hgt)), if_pos hgt, hgt]
  · simp [if_pos hlt, ne_of_lt hlt]
  · simp [if_neg (not_lt_of_le (le_of_eq heq)),
          if_neg (not_lt_of_le (ge_of_eq heq)), heq]
  · simp [if_neg (not_lt_of_le (le_of_lt hgt)), if_pos hgt, (ne_of_lt hgt).symm]

/-- Witness for C8's amended claim at a concrete input: with 40 required
hours and no stamps, the summary exists, requires 40 hours, and reports 40
hours to go. -/
theorem week_summary_compares_raw_hours_witness :
    ∃ sum : WeekSummary,
      weekTableSummary { hours_per_week := some 40 } [] 0 = some sum ∧
      sum.hoursRequired = 40 ∧
      sum.hoursWorked = (currentWeekWorkTime [] 0 : ℚ) / 3600 ∧
      sum.percent = 100 * sum.hoursWorked / 40 ∧
      (sum.message = WeekMessage.toGo (40 - sum.hoursWorked) ↔ sum.hoursWorked < 40) ∧
      (sum.message = WeekMessage.overtime (sum.hoursWorked - 40) ↔ 40 < sum.hoursWorked) ∧
      (sum.message = WeekMessage.justOnTime ↔ sum.hoursWorked = 40) :=
  week_summary_compares_raw_hours { hours_per_week := some 40 } [] 0 40 rfl

/-- Most-significant-first decimal digit expansion with explicit fuel
(any `fuel ≥ n` suffices): models Python's `'{}'.format(n)` for a
natural number. -/
def decimalDigitsAux : Nat → Nat → List Nat
  | 0, _ => []
  | fuel + 1, n =>
      if n = 0 then [] else decimalDigitsAux fuel (n / 10) ++ [n % 10]

/-- The decimal digits of `n`, most significant first (`[0]` for zero). -/
def decimalDigits (n : Nat) : List Nat :=
  if n = 0 then [0] else decimalDigitsAux n n

/-- The stamp file name `'{}.stamp'.format(timestamp)` (stamp.py line 76)
as its sequence of character codes: the ASCII decimal digits of the
timestamp followed by ".stamp". -/
def stampFileName (t : Nat) : List Nat :=
  (decimalDigits t).map (fun d => 48 + d) ++ [46, 115, 116, 97, 109, 112]

/-- Python string `<` on character-code sequences: strict lexicographic
comparison, a proper prefix being smaller. -/
def strLt : List Nat → List Nat → Bool
  | _, [] => false
  | [], _ :: _ => true
  | a :: as, b :: bs => if a < b then true else if a = b then strLt as bs else false

/-- Python `max` over a list of file names, as `most_recent` applies it to
the stamp directory listing (stamp.py lines 91-95); `none` for an empty
store.  All names share the same directory prefix, so only the base names
are compared. -/
def maxFileName : List (List Nat) → Option (List Nat)
  | [] => none
  | f :: fs => some (fs.foldl (fun best x => if strLt best x then x else best) f)

/-- Numeric `max` over the timestamps of the same listing. -/
def maxTimestamp : List Nat → Option Nat
  | [] => none
  | t :: ts => some (ts.foldl Nat.max t)

/-- Numeric value of a most-significant-first digit list. -/
def vMsb (l : List Nat) : Nat :=
  l.foldl (fun acc d => 10 * acc + d) 0

theorem vMsb_foldl (l : List Nat) :
    ∀ acc : Nat,
      l.foldl (fun acc d => 10 * acc + d) acc = acc * 10 ^ l.length + vMsb l := by
  induction l with
  | nil => intro acc; simp [vMsb]
  | cons d l ih =>
      intro acc
      have hv : vMsb (d :: l) = d * 10 ^ l.length + vMsb l := by
        simp only [vMsb, List.foldl_cons]
        have := ih (10 * 0 + d)
        simpa using this
      simp only [List.foldl_cons, List.length_cons]
      rw [ih (10 * acc + d), hv]
      ring

theorem vMsb_cons (d : Nat) (l : List Nat) :
    vMsb (d :: l) = d * 10 ^ l.length + vMsb l := by
  simp only [vMsb, List.foldl_cons]
  have := vMsb_foldl l (10 * 0 + d)
  simpa using this

theorem vMsb_append_digit (xs : List Nat) (d : Nat) :
    vMsb (xs ++ [d]) = 10 * vMsb xs + d := by
  simp [vMsb, List.foldl_append]

theorem vMsb_lt_pow : ∀ l : List Nat, (∀ d ∈ l, d < 10) → vMsb l < 10 ^ l.length := by
  intro l
  induction l with
  | nil => intro _; simp [vMsb]
  | cons d l ih =>
      intro h
      have hd : d < 10 := h d (by simp)
      have hl := ih (fun x hx => h x (by simp [hx]))
      rw [vMsb_cons, List.length_cons]
      calc d * 10 ^ l.length + vMsb l
        < d * 10 ^ l.length + 10 ^ l.length := by omega
        _ = (d + 1) * 10 ^ l.length := by ring
        _ ≤ 10 * 10 ^ l.length := Nat.mul_le_mul_right _ (by omega)
        _ = 10 ^ (l.length + 1) := by rw [pow_succ]; ring

theorem decimalDigitsAux_lt_ten :
    ∀ (fuel n : Nat), ∀ d ∈ decimalDigitsAux fuel n, d < 10 := by
  intro fuel
  induction fuel with
  | zero => intro n d hd; simp [decimalDigitsAux] at hd
  | succ fuel ih =>
      intro n d hd
      rw [decimalDigitsAux] at hd
      split at hd
      · simp at hd
      · rcases List.mem_append.mp hd with hd | hd
        · exact ih (n / 10) d hd
        · simp at hd
          omega

theorem decimalDigitsAux_value :
    ∀ (fuel n : Nat), n < 10 ^ fuel → vMsb (decimalDigitsAux fuel n) = n := by
  intro fuel
  induction fuel with
  | zero =>
      intro n h
      simp only [pow_zero, Nat.lt_one_iff] at h
      subst h
      simp [decimalDigitsAux, vMsb]
  | succ fuel ih =>
      intro n h
      rw [decimalDigitsAux]
      by_cases hn : n = 0
      · simp [hn, vMsb]
      · rw [if_neg hn, vMsb_append_digit]
        have hdiv : n / 10 < 10 ^ fuel := by
          rw [Nat.div_lt_iff_lt_mul (by norm_num : (0:Nat) < 10)]
          calc n < 10 ^ (fuel + 1) := h
            _ = 10 ^ fuel * 10 := by rw [pow_succ]
        rw [ih (n / 10) hdiv]
        omega

theorem decimalDigits_lt_ten (n : Nat) : ∀ d ∈ decimalDigits n, d < 10 := by
  intro d hd
  rw [decimalDigits] at hd
  split at hd
  · simp at hd
    omega
  · exact decimalDigitsAux_lt_ten n n d hd

theorem decimalDigits_value (n : Nat) : vMsb (decimalDigits n) = n := by
  rw [decimalDigits]
  split
  · simp_all [vMsb]
  · exact decimalDigitsAux_value n n (Nat.lt_pow_self (by norm_num) n)

theorem strLt_self : ∀ s : List Nat, strLt s s = false := by
  intro s
  induction s with
  | nil => rfl
  | cons a s ih => simp [strLt, ih]

/-- Lexicographic comparison of two equal-length digit strings (with a
common suffix) coincides with numeric comparison of their values. -/
theorem strLt_digits_iff :
    ∀ (da db s : List Nat), da.length = db.length →
      (∀ d ∈ da, d < 10) → (∀ d ∈ db, d < 10) →
      (strLt (da.map (fun d => 48 + d) ++ s) (db.map (fun d => 48 + d) ++ s) = true
        ↔ vMsb da < vMsb db) := by
  intro da
  induction da with
  | nil =>
      intro db s hlen _ _
      have hdb : db = [] := List.eq_nil_of_length_eq_zero hlen.symm
      subst hdb
      simp [strLt_self]
  | cons x da ih =>
      intro db s hlen hda hdb
      cases db with
      | nil => simp at hlen
      | cons y db =>
          simp only [List.length_cons] at hlen
          have hlen' : da.length = db.length := by omega
          have hx : x < 10 := hda x (by simp)
          have hy : y < 10 := hdb y (by simp)
          have hda' : ∀ d ∈ da, d < 10 := fun d hd => hda d (by simp [hd])
          have hdb' : ∀ d ∈ db, d < 10 := fun d hd => hdb d (by simp [hd])
          have hva := vMsb_lt_pow da hda'
          have hvb := vMsb_lt_pow db hdb'
          rw [← hlen'] at hvb
          rw [vMsb_cons, vMsb_cons, ← hlen']
          simp only [List.map_cons, List.cons_append, strLt]
          rcases Nat.lt_trichotomy x y with hxy | hxy | hxy
          · rw [if_pos (by omega)]
            refine iff_of_true rfl ?_
            calc x * 10 ^ da.length + vMsb da
              < x * 10 ^ da.length + 10 ^ da.length := by omega
              _ = (x + 1) * 10 ^ da.length := by ring
              _ ≤ y * 10 ^ da.length := Nat.mul_le_mul_right _ hxy
              _ ≤ y * 10 ^ da.length + vMsb db := Nat.le_add_right _ _
          · subst hxy
            rw [if_neg (by omega), if_pos rfl]
            exact (ih db s hlen' hda' hdb').trans
              (by constructor <;> intro h <;> omega)
          · rw [if_neg (by omega), if_neg (by omega)]
            refine iff_of_false (by simp) ?_
            intro hcontra
            have hswap : y * 10 ^ da.length + vMsb db < x * 10 ^ da.length + vMsb da := by
              calc y * 10 ^ da.length + vMsb db
                < y * 10 ^ da.length + 10 ^ da.length := by omega
                _ = (y + 1) * 10 ^ da.length := by ring
                _ ≤ x * 10 ^ da.length := Nat.mul_le_mul_right _ hxy
                _ ≤ x * 10 ^ da.length + vMsb da := Nat.le_add_right _ _
            omega

/-- For timestamps with the same number of decimal digits, the Python
string comparison of their stamp file names coincides with the numeric
comparison. -/
theorem strLt_stampFileName_iff (a b : Nat)
    (hlen : (decimalDigits a).length = (decimalDigits b).length) :
    (strLt (stampFileName a) (stampFileName b) = true ↔ a < b) := by
  rw [stampFileName, stampFileName]
  rw [strLt_digits_iff (decimalDigits a) (decimalDigits b)
    [46, 115, 116, 97, 109, 112] hlen (decimalDigits_lt_ten a) (decimalDigits_lt_ten b)]
  rw [decimalDigits_value a, decimalDigits_value b]

theorem foldl_pick_max (k : Nat) :
    ∀ (ts : List Nat) (t0 : Nat),
      (decimalDigits t0).length = k →
      (∀ t ∈ ts, (decimalDigits t).length = k) →
      ts.foldl
          (fun best x => if strLt best (stampFileName x) then stampFileName x else best)
          (stampFileName t0)
        = stampFileName (ts.foldl Nat.max t0) := by
  intro ts
  induction ts with
  | nil => intro t0 _ _; rfl
  | cons t ts ih =>
      intro t0 h0 hts
      have ht : (decimalDigits t).length = k := hts t (by simp)
      have hiff := strLt_stampFileName_iff t0 t (h0.trans ht.symm)
      simp only [List.foldl_cons]
      cases hsl : strLt (stampFileName t0) (stampFileName t) with
      | true =>
          have hlt : t0 < t := hiff.mp hsl
          have hmax : Nat.max t0 t = t := by
            simp only [Nat.max_def]
            split <;> omega
          rw [if_pos rfl, hmax]
          exact ih t ht (fun x hx => hts x (by simp [hx]))
      | false =>
          have hge : ¬ t0 < t := fun hc => by simp [hiff.mpr hc] at hsl
          have hmax : Nat.max t0 t = t0 := by
            simp only [Nat.max_def]
            split <;> omega
          rw [if_neg (by simp), hmax]
          exact ih t0 h0 (fun x hx => hts x (by simp [hx]))

/-- Counterexample to C9: over the valid stamp file names `999.stamp` and
`1000.stamp`, the lexicographic maximum taken by `most_recent` is
`999.stamp`, yet the numerically largest timestamp is 1000 — the
lexicographically largest name does not always coincide with the
numerically largest timestamp, and `most_recent` would load the older
stamp. -/
theorem most_recent_lexicographic_counterexample :
    maxFileName ([999, 1000].map stampFileName) = some (stampFileName 999) ∧
    maxTimestamp [999, 1000] = some 1000 ∧
    stampFileName 999 ≠ stampFileName 1000 ∧
    (999 : Nat) < 1000 := by
  refine ⟨by decide, by decide, by decide, by norm_num⟩

/-- C9 amended: `most_recent` returns the stamp with the lexicographically
largest file name, and for any nonempty store whose timestamps all have
the same number of decimal digits (as all unix-second timestamps between
2001-09-09 and 2286-11-20 do), that name is exactly the one encoding the
numerically largest timestamp. -/
theorem most_recent_lexicographic_eq_numeric :
    ∀ (k : Nat) (ts : List Nat), ts ≠ [] →
      (∀ t ∈ ts, (decimalDigits t).length = k) →
      maxFileName (ts.map stampFileName) = (maxTimestamp ts).map stampFileName := by
  intro k ts hne hlen
  cases ts with
  | nil => exact absurd rfl hne
  | cons t ts =>
      rw [List.map_cons, maxFileName, maxTimestamp, Option.map_some']
      rw [List.foldl_map]
      rw [foldl_pick_max k ts t (hlen t (by simp)) (fun x hx => hlen x (by simp [hx]))]

/-- Witness for C9's amended claim at a concrete input: two 10-digit
timestamps; the lexicographic maximum of the file names encodes the
numeric maximum. -/
theorem most_recent_lexicographic_eq_numeric_witness :
    maxFileName ([1704182400, 1704211200].map stampFileName)
      = (maxTimestamp [1704182400, 1704211200]).map stampFileName :=
  most_recent_lexicographic_eq_numeric 10 [1704182400, 1704211200]
    (by simp) (by decide)

end Timeclock
